import Mathlib

/-!
Verification of an Earley recognizer (`parser.py`).

The source represents symbols and tokens as opaque comparable values
(strings in the examples); we model them as `String`.  An `Item` is the
namedtuple `Item(lhs, done, rest, i)` and a `Grammar` the namedtuple
`Grammar(rules, terminals, start)`; the terminal container is modelled as a
list of symbols with value membership.

Python states are `set`s; we model a state as a duplicate-free list in
insertion order (the worklist guard `if item not in state` is what keeps it
duplicate-free).  Worklists are queues: `items.pop(0)` pops the front and
`items += xs` appends at the back, which the embedding mirrors exactly.

Partiality: `completions` evaluates `states[item.i]`, which raises
`IndexError` when `item.i >= len(states)`; this is modelled with `Option`
(`none` = `IndexError`).  The per-position worklist loop is embedded with
explicit fuel; the driver supplies a fuel value large enough for the loop's
fixed point, and fuel exhaustion is kept distinct from the `IndexError`
outcome: results of the table builder live in `Option (Option _)` where the
outer `none` means "fuel ran out" (an artifact of the embedding, never hit
for the supplied fuel on the examples below) and `some none` means the
source raises `IndexError`.
-/

namespace Earley

/-- Symbols and tokens: opaque comparable values, modelled as strings. -/
abbrev Sym := String

/-- `Item = namedtuple('Item', 'lhs done rest i')`. -/
structure Item where
  lhs : Sym
  done : List Sym
  rest : List Sym
  i : Nat
deriving DecidableEq, Repr

/-- `Grammar = namedtuple('Grammar', 'rules terminals start')`. -/
structure Grammar where
  rules : List (Sym × List Sym)
  terminals : List Sym
  start : Sym
deriving DecidableEq, Repr

/-- `initial_item(rule, i)`: the initial item associated with a grammar rule
(`Item(lhs, (), tuple(rhs), i)`). -/
def initial_item (rule : Sym × List Sym) (i : Nat) : Item :=
  ⟨rule.1, [], rule.2, i⟩

/-- `predictions(item, grammar, i)`: items predicted by the first
unprocessed symbol of `item` (empty when the item is complete or its next
symbol is a terminal). -/
def predictions (item : Item) (grammar : Grammar) (i : Nat) : List Item :=
  match item.rest with
  | [] => []
  | s :: _ =>
    if s ∈ grammar.terminals then []
    else (grammar.rules.filter fun rule => decide (rule.1 = s)).map
      fun rule => initial_item rule i

/-- `advance(item)`: `Item(lhs, done+rest[0:1], rest[1:], i)`.  Note the
source uses total tuple slicing, so this is total as well. -/
def advance (item : Item) : Item :=
  ⟨item.lhs, item.done ++ item.rest.take 1, item.rest.drop 1, item.i⟩

/-- `prev.rest != () and prev.rest[0] == x`. -/
def waits_on (prev : Item) (x : Sym) : Bool :=
  match prev.rest with
  | [] => false
  | s :: _ => s == x

/-- `completions(item, states)`: advanced parents found in `states[item.i]`.
`none` models the `IndexError` raised when `item.i >= len(states)`. -/
def completions (item : Item) (states : List (List Item)) :
    Option (List Item) :=
  (states.get? item.i).map fun st =>
    (st.filter fun prev => waits_on prev item.lhs).map advance

/-- One position of `earley_table`'s worklist loop (`while items:`), with
fuel.  Arguments: accumulated `state`, worklist `items`, scan output
`next_items`.  Result: `none` = out of fuel, `some none` = `IndexError`
inside `completions`, `some (some (state, next_items))` = loop finished. -/
def closureFuel (g : Grammar) (prior : List (List Item)) (i : Nat) (t : Sym) :
    Nat → List Item → List Item → List Item →
      Option (Option (List Item × List Item))
  | _, state, [], next_items => some (some (state, next_items))
  | 0, _, _ :: _, _ => none
  | fuel + 1, state, item :: items, next_items =>
    if item ∈ state then
      closureFuel g prior i t fuel state items next_items
    else
      match item.rest with
      | [] =>
        match completions item prior with
        | none => some none
        | some comps =>
          closureFuel g prior i t fuel (state ++ [item]) (items ++ comps)
            next_items
      | s :: _ =>
        if s ∈ g.terminals ∧ s = t then
          closureFuel g prior i t fuel (state ++ [item]) items
            (next_items ++ [advance item])
        else
          closureFuel g prior i t fuel (state ++ [item])
            (items ++ predictions item g i) next_items

/-- All structurally valid items for grammar `g` with origin at most `i`:
a split of the right-hand side of some rule.  Used only to size the fuel
and to bound state sizes. -/
def allItems (g : Grammar) (i : Nat) : List Item :=
  g.rules.flatMap fun r =>
    (List.range (r.2.length + 1)).flatMap fun k =>
      (List.range (i + 1)).map fun o => ⟨r.1, r.2.take k, r.2.drop k, o⟩

/-- Fuel that suffices for one position's worklist loop. -/
def stateFuel (g : Grammar) (prior : List (List Item)) (seed : List Item) :
    Nat :=
  let K := g.rules.length + (prior.map List.length).sum
  (K + 1) * ((allItems g prior.length).dedup.length + 1) + seed.length + 1

/-- The `for i,t in enumerate(tokens)` loop of `earley_table`: `states` is
the table built so far, `next_items` the seed carried from the previous
position's scans. -/
def earleyGo (g : Grammar) :
    List (List Item) → List Item → List Sym →
      Option (Option (List (List Item)))
  | states, _, [] => some (some states)
  | states, next_items, t :: ts =>
    match closureFuel g states states.length t
        (stateFuel g states next_items) [] next_items [] with
    | none => none
    | some none => some none
    | some (some (state, nxt)) => earleyGo g (states ++ [state]) nxt ts

/-- `earley_table(grammar, tokens)`: seeds with the start rules' initial
items, appends the sentinel `""`, and runs the position loop. -/
def earley_table (g : Grammar) (tokens : List Sym) :
    Option (Option (List (List Item))) :=
  earleyGo g []
    ((g.rules.filter fun r => decide (r.1 = g.start)).map
      fun r => initial_item r 0)
    (tokens ++ [""])

/-- `tokens += [""]` in `earley_table` extends the caller's token list in
place (Python list `+=` mutates); this gives the contents of the
caller-owned list after a call `earley_table(g, tokens)`. -/
def tokens_after_earley_table (_g : Grammar) (tokens : List Sym) :
    List Sym := tokens ++ [""]

/-- The loop condition of `final_item`:
`item.lhs == grammar.start and item.i == 0 and item.rest == ()`. -/
def is_final (g : Grammar) (item : Item) : Bool :=
  decide (item.lhs = g.start) && decide (item.i = 0) &&
    decide (item.rest = [])

/-- `final_item(states, grammar)`: searches `states[-1]` for a completed
start item with origin 0.  The outer `Option` models the `IndexError` that
`states[-1]` raises on an empty table. -/
def final_item (states : List (List Item)) (g : Grammar) :
    Option (Option Item) :=
  match states.getLast? with
  | none => none
  | some last => some (last.find? (is_final g))

/-- `recognizer(grammar, tokens)`: `final_item(...) is not None`.  Result:
`none` = embedding fuel exhausted, `some none` = the source raises an
exception, `some (some b)` = the source returns the boolean `b`. -/
def recognizer (g : Grammar) (tokens : List Sym) : Option (Option Bool) :=
  match earley_table g tokens with
  | none => none
  | some none => some none
  | some (some states) =>
    match final_item states g with
    | none => some none
    | some r => some (some r.isSome)

/-- Structural validity of an item for grammar `g`: `done ++ rest` is the
right-hand side of some rule whose left-hand side is `lhs` (the spec's Item
invariant). -/
def ValidItem (g : Grammar) (it : Item) : Prop :=
  ∃ r ∈ g.rules, it.lhs = r.1 ∧ it.done ++ it.rest = r.2

/-- Invariant of every item recorded in the state at position `i`: valid
for the grammar, with origin at most `i`. -/
def Inv (g : Grammar) (i : Nat) (it : Item) : Prop :=
  ValidItem g it ∧ it.i ≤ i

/-- Sum over the rules of (right-hand-side length + 1): the number of
dotted forms of the grammar's rules. -/
def ruleSlots (g : Grammar) : Nat :=
  (g.rules.map fun r => r.2.length + 1).sum

/-- Checks every state of a table against the size bound
`ruleSlots g * (position + 1)`, `j` being the position of the first
state of the list. -/
def statesWithinBoundFrom (g : Grammar) : Nat → List (List Item) → Bool
  | _, [] => true
  | j, st :: rest =>
    decide (st.length ≤ ruleSlots g * (j + 1)) &&
      statesWithinBoundFrom g (j + 1) rest

/-- Every state of the table is within the size bound for its position. -/
def statesWithinBound (g : Grammar) (tbl : List (List Item)) : Bool :=
  statesWithinBoundFrom g 0 tbl

/-- A grammar whose start symbol derives the empty string by one rule with
an empty right-hand side. -/
def nullStartGrammar : Grammar := ⟨[("a", [])], [], "a"⟩

/-- Scenario-4 grammar: `a → b`, `b → 0`, start `a`, terminal `0`. -/
def chainGrammar : Grammar := ⟨[("a", ["b"]), ("b", ["0"])], ["0"], "a"⟩

/-- An ambiguous grammar used to exercise state sizes:
`S → S S | S S S | a`. -/
def fatGrammar : Grammar :=
  ⟨[("S", ["S", "S"]), ("S", ["S", "S", "S"]), ("S", ["a"])], ["a"], "S"⟩

/-- The arithmetic-expression grammar of the source's `test_example`. -/
def arithGrammar : Grammar :=
  ⟨[("sum", ["sum", "+", "product"]),
    ("sum", ["product"]),
    ("product", ["product", "*", "factor"]),
    ("product", ["factor"]),
    ("factor", ["(", "sum", ")"]),
    ("factor", ["number"]),
    ("number", ["0"]),
    ("number", ["1"])],
   ["0", "1", "+", "*", "(", ")"], "sum"⟩

/-! ## Theorems -/

set_option maxRecDepth 40000 in
/-- End-to-end validation of the embedding against the source's own
`test_example` assertions: `1 * ( 1 + 1 )` is recognized and the
malformed `0 + ( 1 * )` is rejected with a normal `False` return. -/
theorem test_example_scenarios :
    recognizer arithGrammar ["1", "*", "(", "1", "+", "1", ")"] =
      some (some true) ∧
    recognizer arithGrammar ["0", "+", "(", "1", "*", ")"] =
      some (some false) := by
  constructor
  · decide
  · decide

/-- C7: on an item with non-empty remaining, `advance` moves exactly the
first remaining symbol to the end of `done`, keeps `lhs` and the origin,
and preserves the concatenation `done ++ rest`. -/
theorem advance_moves_first_symbol (item : Item) (s : Sym) (tl : List Sym)
    (h : item.rest = s :: tl) :
    advance item = ⟨item.lhs, item.done ++ [s], tl, item.i⟩ ∧
      (advance item).done ++ (advance item).rest = item.done ++ item.rest := by
  simp [advance, h]

/-- Witness for C7 at a concrete item. -/
theorem advance_moves_first_symbol_witness :
    advance ⟨"a", ["b"], ["c", "d"], 3⟩ = ⟨"a", ["b"] ++ ["c"], ["d"], 3⟩ ∧
      (advance ⟨"a", ["b"], ["c", "d"], 3⟩).done ++
          (advance ⟨"a", ["b"], ["c", "d"], 3⟩).rest = ["b"] ++ ["c", "d"] :=
  advance_moves_first_symbol ⟨"a", ["b"], ["c", "d"], 3⟩ "c" ["d"] rfl

/-- C6 (counterexample): `advance` on an item whose remaining sequence is
empty does not fail: it returns a value, namely the unchanged item
(`rest[0:1]` and `rest[1:]` are both empty tuples in the source). -/
theorem advance_empty_counterexample :
    advance ⟨"a", ["b"], [], 5⟩ = ⟨"a", ["b"], [], 5⟩ := rfl

/-- C6 (amended): calling `advance` on an item with empty remaining
returns normally and yields the item unchanged. -/
theorem advance_empty_identity (item : Item) (h : item.rest = []) :
    advance item = item := by
  cases item
  simp_all [advance]

/-- Witness for the amended C6 at a concrete item. -/
theorem advance_empty_identity_witness :
    advance ⟨"x", ["y", "z"], [], 0⟩ = ⟨"x", ["y", "z"], [], 0⟩ :=
  advance_empty_identity ⟨"x", ["y", "z"], [], 0⟩ rfl

/-- C8: `predictions` returns the empty list when the item is complete or
its next symbol is a terminal; otherwise it returns, in the grammar's
original rule order, one initial item (empty `done`, the rule's full
right-hand side, origin the current position `i`) for each rule whose
left-hand side equals the item's next symbol. -/
theorem predictions_spec (item : Item) (g : Grammar) (i : Nat) :
    (item.rest = [] → predictions item g i = []) ∧
    (∀ s tl, item.rest = s :: tl → s ∈ g.terminals →
      predictions item g i = []) ∧
    (∀ s tl, item.rest = s :: tl → s ∉ g.terminals →
      predictions item g i =
        (g.rules.filter fun r => decide (r.1 = s)).map
          fun r => ⟨r.1, [], r.2, i⟩) := by
  refine ⟨fun h => by simp [predictions, h], ?_, ?_⟩
  · intro s tl h hs
    simp [predictions, h, hs]
  · intro s tl h hs
    simp [predictions, h, hs, initial_item]

/-- Witness for C8, mirroring the spec's Scenario 5: predicting from
`a → . b` at origin 1 in the grammar `a → b, b → 0` yields exactly
`b → . 0` at origin 1, while a completed item and a terminal-led item
predict nothing. -/
theorem predictions_spec_witness :
    predictions ⟨"b", ["0"], [], 0⟩ chainGrammar 0 = [] ∧
    predictions ⟨"b", [], ["0"], 0⟩ chainGrammar 0 = [] ∧
    predictions ⟨"a", [], ["b"], 1⟩ chainGrammar 1 = [⟨"b", [], ["0"], 1⟩] :=
  ⟨(predictions_spec ⟨"b", ["0"], [], 0⟩ chainGrammar 0).1 rfl,
   (predictions_spec ⟨"b", [], ["0"], 0⟩ chainGrammar 0).2.1 "0" [] rfl
     (by decide),
   ((predictions_spec ⟨"a", [], ["b"], 1⟩ chainGrammar 1).2.2 "b" [] rfl
     (by decide)).trans rfl⟩

/-- C3 (counterexample): after `earley_table(chainGrammar, ["0"])` the
caller's token list is no longer `["0"]`: `tokens += [""]` extended the
caller-owned list in place. -/
theorem tokens_mutated_counterexample :
    tokens_after_earley_table chainGrammar ["0"] ≠ ["0"] := by decide

/-- C3 (amended): `earley_table` appends the sentinel to the caller-owned
token list in place: after the call the caller's sequence equals
`tokens ++ [""]`, which differs from the original tokens. -/
theorem tokens_after_append_sentinel (g : Grammar) (tokens : List Sym) :
    tokens_after_earley_table g tokens = tokens ++ [""] ∧
      tokens_after_earley_table g tokens ≠ tokens := by
  refine ⟨rfl, fun h => ?_⟩
  have hl := congrArg List.length h
  simp [tokens_after_earley_table] at hl

/-- Witness for the amended C3 at a concrete input. -/
theorem tokens_after_append_sentinel_witness :
    tokens_after_earley_table chainGrammar ["1"] = ["1"] ++ [""] ∧
      tokens_after_earley_table chainGrammar ["1"] ≠ ["1"] :=
  tokens_after_append_sentinel chainGrammar ["1"]

/-- C2 (code bug): recognizing the empty token sequence against a grammar
whose start symbol directly derives the empty string does not return
`true`: the completed start item has origin 0 at position 0, `completions`
evaluates `states[0]` while `states` is still `[]`, and the source raises
`IndexError` (modelled `some none`). -/
theorem recognizer_nullable_empty_raises :
    recognizer nullStartGrammar [] = some none := by decide

/-- The position loop appends exactly one state per token it consumes. -/
theorem earleyGo_length (g : Grammar) :
    ∀ (ts : List Sym) (states : List (List Item)) (nxt : List Item)
      (out : List (List Item)),
      earleyGo g states nxt ts = some (some out) →
      out.length = states.length + ts.length := by
  intro ts
  induction ts with
  | nil =>
    intro states nxt out h
    simp only [earleyGo, Option.some.injEq] at h
    simp [← h]
  | cons t ts ih =>
    intro states nxt out h
    simp only [earleyGo] at h
    split at h
    · exact absurd h (by simp)
    · exact absurd h (by simp)
    · rename_i state nxt2 heq
      have h2 := ih _ _ _ h
      simp only [List.length_append, List.length_cons, List.length_nil] at h2 ⊢
      omega

/-- Unpacking a successful table construction. -/
theorem table_of_join_isSome (g : Grammar) (tokens : List Sym)
    (h : (earley_table g tokens).join.isSome = true) :
    ∃ tbl, earley_table g tokens = some (some tbl) := by
  cases he : earley_table g tokens with
  | none => rw [he] at h; simp at h
  | some o =>
    cases o with
    | none => rw [he] at h; simp at h
    | some tbl => exact ⟨tbl, rfl⟩

/-- C4 (counterexample): on `nullStartGrammar` and the empty token
sequence (n = 0), `earley_table` does not return a table of 1 state: it
raises `IndexError` (modelled `some none`). -/
theorem table_length_counterexample :
    earley_table nullStartGrammar [] = some none := by decide

/-- C4 (amended): whenever `earley_table` returns a table — i.e. no
completion looked back at the still-missing current state — the table has
exactly `tokens.length + 1` states. -/
theorem table_length_of_success (g : Grammar) (tokens : List Sym)
    (h : (earley_table g tokens).join.isSome = true) :
    (earley_table g tokens).join.map List.length =
      some (tokens.length + 1) := by
  obtain ⟨tbl, htbl⟩ := table_of_join_isSome g tokens h
  have h0 : earleyGo g []
      ((g.rules.filter fun r => decide (r.1 = g.start)).map
        fun r => initial_item r 0) (tokens ++ [""]) = some (some tbl) := htbl
  have hlen := earleyGo_length g (tokens ++ [""]) _ _ tbl h0
  simp at hlen
  rw [htbl]
  simp [Option.join]
  omega

/-- Witness for the amended C4 at a concrete successful parse. -/
theorem table_length_of_success_witness :
    (earley_table chainGrammar ["0"]).join.map List.length =
      some (["0"].length + 1) :=
  table_length_of_success chainGrammar ["0"] (by decide)

/-- C10 (counterexample): for `nullStartGrammar` and tokens `["x"]`,
`earley_table` does not return a table at all — the completion of the
empty start rule at position 0 raises `IndexError` — so `final_item` is
never reached. -/
theorem final_state_counterexample :
    earley_table nullStartGrammar ["x"] = some none := by decide

/-- C10 (amended): whenever `earley_table` returns a table, the table is
non-empty (the sentinel forces at least one loop iteration), and
`final_item`'s access to its last state succeeds. -/
theorem final_state_exists (g : Grammar) (tokens : List Sym)
    (h : (earley_table g tokens).join.isSome = true) :
    (earley_table g tokens).join.map List.isEmpty = some false ∧
      ((earley_table g tokens).join.bind fun tbl =>
        final_item tbl g).isSome = true := by
  obtain ⟨tbl, htbl⟩ := table_of_join_isSome g tokens h
  have h0 : earleyGo g []
      ((g.rules.filter fun r => decide (r.1 = g.start)).map
        fun r => initial_item r 0) (tokens ++ [""]) = some (some tbl) := htbl
  have hlen := earleyGo_length g (tokens ++ [""]) _ _ tbl h0
  simp at hlen
  have hne : tbl ≠ [] := by
    intro hnil
    rw [hnil] at hlen
    simp at hlen
  obtain ⟨last, hlast⟩ := Option.isSome_iff_exists.mp
    (List.getLast?_isSome.mpr hne)
  rw [htbl]
  constructor
  · simp [List.isEmpty_iff, hne]
  · simp [final_item, hlast]

/-- Witness for the amended C10 at a concrete successful parse. -/
theorem final_state_exists_witness :
    (earley_table chainGrammar ["0"]).join.map List.isEmpty = some false ∧
      ((earley_table chainGrammar ["0"]).join.bind fun tbl =>
        final_item tbl chainGrammar).isSome = true :=
  final_state_exists chainGrammar ["0"] (by decide)

/-- `advance` preserves structural validity: `done ++ rest` is unchanged. -/
theorem advance_valid (g : Grammar) (q : Item) (h : ValidItem g q) :
    ValidItem g (advance q) := by
  obtain ⟨r, hr, hlhs, hsplit⟩ := h
  refine ⟨r, hr, hlhs, ?_⟩
  simp only [advance, List.append_assoc, List.take_append_drop]
  exact hsplit

/-- The invariant is monotone in the position. -/
theorem inv_mono (g : Grammar) (i j : Nat) (it : Item) (hij : i ≤ j)
    (h : Inv g i it) : Inv g j it :=
  ⟨h.1, le_trans h.2 hij⟩

/-- Predicted items are valid with origin the current position. -/
theorem predictions_inv (item : Item) (g : Grammar) (i : Nat) :
    ∀ p ∈ predictions item g i, Inv g i p := by
  intro p hp
  unfold predictions at hp
  cases hr : item.rest with
  | nil => rw [hr] at hp; simp at hp
  | cons s tl =>
    rw [hr] at hp
    by_cases hs : s ∈ g.terminals
    · simp [hs] at hp
    · simp only [if_neg hs, List.mem_map, List.mem_filter] at hp
      obtain ⟨r, ⟨hrmem, _⟩, rfl⟩ := hp
      exact ⟨⟨r, hrmem, rfl, by simp [initial_item]⟩, le_refl i⟩

/-- Items produced by `completions` are valid with origin at most `i`,
provided the prior states respect the invariant at their index. -/
theorem completions_inv (g : Grammar) (prior : List (List Item))
    (item : Item) (comps : List Item) (i : Nat)
    (hprior : ∀ j st, prior.get? j = some st → ∀ p ∈ st, Inv g j p)
    (hit : item.i ≤ i)
    (hc : completions item prior = some comps) :
    ∀ p ∈ comps, Inv g i p := by
  intro p hp
  unfold completions at hc
  cases hs : prior.get? item.i with
  | none => rw [hs] at hc; simp at hc
  | some st =>
    rw [hs] at hc
    simp at hc
    subst hc
    simp only [List.mem_map, List.mem_filter] at hp
    obtain ⟨q, ⟨hqmem, _⟩, rfl⟩ := hp
    have hq := hprior item.i st hs q hqmem
    exact ⟨advance_valid g q hq.1, le_trans hq.2 hit⟩

/-- Appending a fresh element keeps a list duplicate-free. -/
theorem nodup_append_singleton {α : Type} [DecidableEq α] {l : List α}
    {a : α} (h : l.Nodup) (ha : a ∉ l) : (l ++ [a]).Nodup := by
  refine List.Nodup.append h (List.nodup_singleton a) ?_
  intro x hx hxa
  rw [List.mem_singleton.mp hxa] at hx
  exact ha hx

/-- Invariant of the worklist loop: on success, the finished state is
duplicate-free and its items (and the scan seed's items) are valid with
origin at most the current position. -/
theorem closure_inv (g : Grammar) (prior : List (List Item)) (i : Nat)
    (t : Sym)
    (hprior : ∀ j st, prior.get? j = some st → ∀ p ∈ st, Inv g j p) :
    ∀ (fuel : Nat) (state items nxt st2 nx2 : List Item),
      state.Nodup → (∀ p ∈ state, Inv g i p) → (∀ p ∈ items, Inv g i p) →
      (∀ p ∈ nxt, Inv g i p) →
      closureFuel g prior i t fuel state items nxt =
        some (some (st2, nx2)) →
      st2.Nodup ∧ (∀ p ∈ st2, Inv g i p) ∧ (∀ p ∈ nx2, Inv g i p) := by
  intro fuel
  induction fuel with
  | zero =>
    intro state items nxt st2 nx2 hnd hst hwl hnx h
    cases items with
    | nil =>
      simp only [closureFuel, Option.some.injEq, Prod.mk.injEq] at h
      obtain ⟨rfl, rfl⟩ := h
      exact ⟨hnd, hst, hnx⟩
    | cons item rest => simp [closureFuel] at h
  | succ fuel ih =>
    intro state items nxt st2 nx2 hnd hst hwl hnx h
    cases items with
    | nil =>
      simp only [closureFuel, Option.some.injEq, Prod.mk.injEq] at h
      obtain ⟨rfl, rfl⟩ := h
      exact ⟨hnd, hst, hnx⟩
    | cons item rest =>
      have hitem : Inv g i item := hwl item (List.mem_cons_self item rest)
      have hrest : ∀ p ∈ rest, Inv g i p :=
        fun p hp => hwl p (List.mem_cons_of_mem item hp)
      simp only [closureFuel] at h
      by_cases hmem : item ∈ state
      · rw [if_pos hmem] at h
        exact ih state rest nxt st2 nx2 hnd hst hrest hnx h
      · rw [if_neg hmem] at h
        have hnd2 : (state ++ [item]).Nodup := nodup_append_singleton hnd hmem
        have hst2 : ∀ p ∈ state ++ [item], Inv g i p := by
          intro p hp
          rcases List.mem_append.mp hp with hp | hp
          · exact hst p hp
          · rw [List.mem_singleton.mp hp]; exact hitem
        cases hres : item.rest with
        | nil =>
          simp only [hres] at h
          cases hcomp : completions item prior with
          | none => rw [hcomp] at h; simp at h
          | some comps =>
            rw [hcomp] at h
            have hcm := completions_inv g prior item comps i hprior
              hitem.2 hcomp
            refine ih (state ++ [item]) (rest ++ comps) nxt st2 nx2 hnd2
              hst2 ?_ hnx h
            intro p hp
            rcases List.mem_append.mp hp with hp | hp
            · exact hrest p hp
            · exact hcm p hp
        | cons s tl =>
          simp only [hres] at h
          by_cases hcond : s ∈ g.terminals ∧ s = t
          · rw [if_pos hcond] at h
            refine ih (state ++ [item]) rest
              (nxt ++ [advance item]) st2 nx2 hnd2 hst2 hrest ?_ h
            intro p hp
            rcases List.mem_append.mp hp with hp | hp
            · exact hnx p hp
            · rw [List.mem_singleton.mp hp]
              exact ⟨advance_valid g item hitem.1, hitem.2⟩
          · rw [if_neg hcond] at h
            refine ih (state ++ [item]) (rest ++ predictions item g i)
              nxt st2 nx2 hnd2 hst2 ?_ hnx h
            intro p hp
            rcases List.mem_append.mp hp with hp | hp
            · exact hrest p hp
            · exact predictions_inv item g i p hp

/-- The seed of position 0 consists of valid items with origin 0. -/
theorem seed_inv (g : Grammar) :
    ∀ p ∈ (g.rules.filter fun r => decide (r.1 = g.start)).map
      (fun r => initial_item r 0), Inv g 0 p := by
  intro p hp
  simp only [List.mem_map, List.mem_filter] at hp
  obtain ⟨r, ⟨hr, _⟩, rfl⟩ := hp
  exact ⟨⟨r, hr, rfl, by simp [initial_item]⟩, le_refl 0⟩

/-- Every state of a successfully built table is duplicate-free and its
items are valid with origin at most the state's position. -/
theorem earleyGo_inv (g : Grammar) :
    ∀ (ts : List Sym) (states : List (List Item)) (nxt : List Item)
      (out : List (List Item)),
      (∀ j st, states.get? j = some st →
        st.Nodup ∧ ∀ p ∈ st, Inv g j p) →
      (∀ p ∈ nxt, Inv g states.length p) →
      earleyGo g states nxt ts = some (some out) →
      ∀ j st, out.get? j = some st → st.Nodup ∧ ∀ p ∈ st, Inv g j p := by
  intro ts
  induction ts with
  | nil =>
    intro states nxt out hstates _ h
    simp only [earleyGo, Option.some.injEq] at h
    subst h
    exact hstates
  | cons t ts ih =>
    intro states nxt out hstates hnxt h
    simp only [earleyGo] at h
    split at h
    · exact absurd h (by simp)
    · exact absurd h (by simp)
    · rename_i state nxt2 heq
      have hpr : ∀ j st, states.get? j = some st → ∀ p ∈ st, Inv g j p :=
        fun j st hj => (hstates j st hj).2
      have hcl := closure_inv g states states.length t hpr
        (stateFuel g states nxt) [] nxt [] state nxt2 List.nodup_nil
        (by simp) hnxt (by simp) heq
      refine ih (states ++ [state]) nxt2 out ?_ ?_ h
      · intro j st hj
        by_cases hlt : j < states.length
        · rw [List.get?_append hlt] at hj
          exact hstates j st hj
        · have hge := le_of_not_lt hlt
          rw [List.get?_append_right hge] at hj
          cases hd : j - states.length with
          | zero =>
            rw [hd] at hj
            simp at hj
            subst hj
            have hjeq : j = states.length := by omega
            subst hjeq
            exact ⟨hcl.1, hcl.2.1⟩
          | succ k =>
            rw [hd] at hj
            simp at hj
      · intro p hp
        have := hcl.2.2 p hp
        refine inv_mono g states.length _ p ?_ this
        simp

/-- Every item satisfying the invariant at position `i` occurs in
`allItems g i`. -/
theorem mem_allItems (g : Grammar) (i : Nat) (it : Item) (h : Inv g i it) :
    it ∈ allItems g i := by
  obtain ⟨⟨r, hr, hlhs, hsplit⟩, hi⟩ := h
  unfold allItems
  simp only [List.mem_flatMap, List.mem_map, List.mem_range]
  refine ⟨r, hr, it.done.length, ?_, it.i, by omega, ?_⟩
  · have hl := congrArg List.length hsplit
    simp at hl
    omega
  · rw [← hsplit, List.take_left, List.drop_left]
    cases it
    simp at hlhs ⊢
    exact hlhs.symm

/-- The length of a `flatMap` whose pieces have a common length. -/
theorem flatMap_const_length {α β : Type} (l : List α) (f : α → List β)
    (c : Nat) (h : ∀ a ∈ l, (f a).length = c) :
    (l.flatMap f).length = l.length * c := by
  induction l with
  | nil => simp
  | cons a l ih =>
    simp only [List.flatMap_cons, List.length_append, List.length_cons]
    rw [h a (List.mem_cons_self a l),
      ih fun b hb => h b (List.mem_cons_of_mem a hb)]
    ring

/-- The inner `flatMap` of `allItems` has `(rhs length + 1) * (i + 1)`
entries for one rule. -/
theorem allItems_inner_length (i : Nat) (r : Sym × List Sym) :
    ((List.range (r.2.length + 1)).flatMap fun k =>
      (List.range (i + 1)).map
        fun o => (⟨r.1, r.2.take k, r.2.drop k, o⟩ : Item)).length =
      (r.2.length + 1) * (i + 1) := by
  rw [flatMap_const_length _ _ (i + 1) fun k _ => by simp]
  simp

/-- `allItems g i` has exactly `ruleSlots g * (i + 1)` entries. -/
theorem allItems_length (g : Grammar) (i : Nat) :
    (allItems g i).length = ruleSlots g * (i + 1) := by
  unfold allItems ruleSlots
  induction g.rules with
  | nil => simp
  | cons r rs ih =>
    simp only [List.flatMap_cons, List.length_append, List.map_cons,
      List.sum_cons]
    rw [allItems_inner_length i r, ih]
    ring

/-- A duplicate-free state of valid items at position `j` has at most
`ruleSlots g * (j + 1)` items. -/
theorem state_size_le (g : Grammar) (j : Nat) (st : List Item)
    (hnd : st.Nodup) (hinv : ∀ p ∈ st, Inv g j p) :
    st.length ≤ ruleSlots g * (j + 1) := by
  have hsub : st.toFinset ⊆ (allItems g j).toFinset := by
    intro x hx
    rw [List.mem_toFinset] at hx ⊢
    exact mem_allItems g j x (hinv x hx)
  calc st.length = st.toFinset.card :=
        (List.toFinset_card_of_nodup hnd).symm
    _ ≤ (allItems g j).toFinset.card := Finset.card_le_card hsub
    _ ≤ (allItems g j).length := List.toFinset_card_le _
    _ = ruleSlots g * (j + 1) := allItems_length g j

/-- The table checker succeeds when every state is within the bound. -/
theorem statesWithinBoundFrom_of (g : Grammar) :
    ∀ (tbl : List (List Item)) (j0 : Nat),
      (∀ j st, tbl.get? j = some st →
        st.length ≤ ruleSlots g * (j0 + j + 1)) →
      statesWithinBoundFrom g j0 tbl = true := by
  intro tbl
  induction tbl with
  | nil => intro j0 _; rfl
  | cons st rest ih =>
    intro j0 h
    have h0 := h 0 st rfl
    simp only [statesWithinBoundFrom, Bool.and_eq_true, decide_eq_true_eq]
    constructor
    · simpa using h0
    · refine ih (j0 + 1) ?_
      intro j s hj
      have heq : j0 + 1 + j + 1 = j0 + (j + 1) + 1 := by omega
      rw [heq]
      exact h (j + 1) s (by simpa using hj)

/-- C9 (counterexample): for the grammar `S → S S | S S S | a` (3 rules)
and tokens `["a", "a"]`, state 2 of the table holds 10 items, exceeding
the claimed bound `|rules| * (2 + 1) = 9`. -/
theorem state_size_counterexample :
    ((earley_table fatGrammar ["a", "a"]).join.bind fun tbl =>
      tbl.get? 2).map List.length = some 10 ∧
      ¬ (10 ≤ fatGrammar.rules.length * (2 + 1)) := by decide

/-- C9 (amended): in any table `earley_table` returns, the item count of
the state at position `i` never exceeds
`(sum over the rules of (rhs length + 1)) * (i + 1)`. -/
theorem state_size_bound (g : Grammar) (tokens : List Sym)
    (h : (earley_table g tokens).join.isSome = true) :
    (earley_table g tokens).join.map (statesWithinBound g) = some true := by
  obtain ⟨tbl, htbl⟩ := table_of_join_isSome g tokens h
  have h0 : earleyGo g []
      ((g.rules.filter fun r => decide (r.1 = g.start)).map
        fun r => initial_item r 0) (tokens ++ [""]) = some (some tbl) := htbl
  have hinv := earleyGo_inv g (tokens ++ [""]) [] _ tbl
    (by intro j st hj; simp at hj) (seed_inv g) h0
  rw [htbl]
  show some (statesWithinBound g tbl) = some true
  refine congrArg some ?_
  unfold statesWithinBound
  refine statesWithinBoundFrom_of g tbl 0 ?_
  intro j st hj
  have hst := hinv j st hj
  have := state_size_le g j st hst.1 hst.2
  simpa using this

/-- Witness for the amended C9 on the counterexample's own grammar and
input. -/
theorem state_size_bound_witness :
    (earley_table fatGrammar ["a", "a"]).join.map
      (statesWithinBound fatGrammar) = some true :=
  state_size_bound fatGrammar ["a", "a"] (by decide)

/-- C1 (counterexample): recognition is not exception-free on every
non-match.  For `nullStartGrammar` (language `{ε}`) and tokens `["x"]` —
a non-match — the completed start item at position 0 makes `completions`
evaluate `states[0]` while `states` is still `[]`, so the source raises
`IndexError` (modelled `some none`) instead of returning the normal
`False`. -/
theorem recognizer_nonmatch_raises_counterexample :
    recognizer nullStartGrammar ["x"] = some none ∧
      recognizer nullStartGrammar ["x"] ≠ some (some false) := by decide

/-- C1 (amended): whenever `earley_table` builds its table, `recognizer`
returns normally the boolean that is true exactly when the table's last
state holds an item with `lhs` the start symbol, origin 0 and empty
remaining; on such runs a non-match is the normal `false` return, not an
exception.  (For a grammar with a reachable empty right-hand side,
`earley_table` itself raises, so `recognizer` raises even on a
non-match.) -/
theorem recognizer_matches_final_state (g : Grammar) (tokens : List Sym)
    (h : (earley_table g tokens).join.isSome = true) :
    ∃ tbl last, earley_table g tokens = some (some tbl) ∧
      tbl.getLast? = some last ∧
      recognizer g tokens = some (some (last.any (is_final g))) ∧
      (recognizer g tokens = some (some true) ↔
        ∃ item ∈ last,
          item.lhs = g.start ∧ item.i = 0 ∧ item.rest = []) := by
  obtain ⟨tbl, htbl⟩ := table_of_join_isSome g tokens h
  have h0 : earleyGo g []
      ((g.rules.filter fun r => decide (r.1 = g.start)).map
        fun r => initial_item r 0) (tokens ++ [""]) = some (some tbl) := htbl
  have hlen := earleyGo_length g (tokens ++ [""]) _ _ tbl h0
  simp at hlen
  have hne : tbl ≠ [] := by
    intro hnil
    rw [hnil] at hlen
    simp at hlen
  obtain ⟨last, hlast⟩ := Option.isSome_iff_exists.mp
    (List.getLast?_isSome.mpr hne)
  have hrec : recognizer g tokens =
      some (some ((last.find? (is_final g)).isSome)) := by
    simp [recognizer, htbl, final_item, hlast]
  have hfs : (last.find? (is_final g)).isSome = last.any (is_final g) := by
    cases hb : last.any (is_final g) with
    | true =>
      obtain ⟨x, hx, hpx⟩ := List.any_eq_true.mp hb
      exact List.find?_isSome.mpr ⟨x, hx, hpx⟩
    | false =>
      have hnone : last.find? (is_final g) = none := by
        rw [List.find?_eq_none]
        intro x hx hpx
        have hany := List.any_eq_true.mpr ⟨x, hx, hpx⟩
        exact absurd hany (by simp [hb])
      rw [hnone]
      rfl
  refine ⟨tbl, last, htbl, hlast, ?_, ?_⟩
  · rw [hrec, hfs]
  · rw [hrec, hfs]
    simp only [Option.some.injEq, List.any_eq_true, is_final,
      Bool.and_eq_true, decide_eq_true_eq]
    constructor
    · rintro ⟨x, hx, ⟨h1, h2⟩, h3⟩
      exact ⟨x, hx, h1, h2, h3⟩
    · rintro ⟨x, hx, h1, h2, h3⟩
      exact ⟨x, hx, ⟨h1, h2⟩, h3⟩

/-- Witness for C1 at a concrete recognized input. -/
theorem recognizer_matches_final_state_witness :
    ∃ tbl last, earley_table chainGrammar ["0"] = some (some tbl) ∧
      tbl.getLast? = some last ∧
      recognizer chainGrammar ["0"] =
        some (some (last.any (is_final chainGrammar))) ∧
      (recognizer chainGrammar ["0"] = some (some true) ↔
        ∃ item ∈ last,
          item.lhs = chainGrammar.start ∧ item.i = 0 ∧ item.rest = []) :=
  recognizer_matches_final_state chainGrammar ["0"] (by decide)

/-- C5: during construction of the state at position `i` with lookahead
`t`, a fresh item whose next symbol is a terminal equal to `t` is recorded
in the state and contributes its advanced form to the seed of position
`i + 1` (not to the current worklist); a fresh item whose next symbol is a
terminal different from `t` is recorded in the state and then dropped — it
predicts nothing and advances nothing. -/
theorem scan_step_spec (g : Grammar) (prior : List (List Item)) (i : Nat)
    (t : Sym) (fuel : Nat) (state items next_items : List Item)
    (item : Item) (s : Sym) (tl : List Sym)
    (hmem : item ∉ state) (hrest : item.rest = s :: tl)
    (hterm : s ∈ g.terminals) :
    (s = t →
      closureFuel g prior i t (fuel + 1) state (item :: items)
          next_items =
        closureFuel g prior i t fuel (state ++ [item]) items
          (next_items ++ [advance item])) ∧
    (s ≠ t →
      predictions item g i = [] ∧
      closureFuel g prior i t (fuel + 1) state (item :: items)
          next_items =
        closureFuel g prior i t fuel (state ++ [item]) items
          next_items) := by
  constructor
  · intro ht
    subst ht
    simp only [closureFuel, hrest]
    rw [if_neg hmem, if_pos ⟨hterm, trivial⟩]
  · intro hne
    have hpred : predictions item g i = [] := by
      unfold predictions
      rw [hrest]
      simp [hterm]
    refine ⟨hpred, ?_⟩
    simp only [closureFuel, hrest]
    rw [if_neg hmem, if_neg fun hc => hne hc.2, hpred, List.append_nil]

/-- A duplicate-free list of invariant items is no longer than the
deduplicated item universe. -/
theorem state_card_le_dedup (g : Grammar) (i : Nat) (st : List Item)
    (hnd : st.Nodup) (hinv : ∀ p ∈ st, Inv g i p) :
    st.length ≤ (allItems g i).dedup.length := by
  have hsub : st.toFinset ⊆ (allItems g i).toFinset := by
    intro x hx
    rw [List.mem_toFinset] at hx ⊢
    exact mem_allItems g i x (hinv x hx)
  calc st.length = st.toFinset.card :=
        (List.toFinset_card_of_nodup hnd).symm
    _ ≤ (allItems g i).toFinset.card := Finset.card_le_card hsub
    _ = (allItems g i).dedup.length := List.card_toFinset _

/-- `completions` returns at most as many items as the prior states hold
in total. -/
theorem completions_length_le (item : Item) (prior : List (List Item))
    (comps : List Item) (hc : completions item prior = some comps) :
    comps.length ≤ (prior.map List.length).sum := by
  unfold completions at hc
  cases hs : prior.get? item.i with
  | none => rw [hs] at hc; simp at hc
  | some st =>
    rw [hs] at hc
    simp at hc
    subst hc
    have hmem : st ∈ prior := List.get?_mem hs
    have hle : st.length ≤ (prior.map List.length).sum :=
      List.single_le_sum (fun x _ => Nat.zero_le x) st.length
        (List.mem_map_of_mem List.length hmem)
    calc ((st.filter fun prev => waits_on prev item.lhs).map
          advance).length
        = (st.filter fun prev => waits_on prev item.lhs).length := by simp
      _ ≤ st.length := List.length_filter_le _ st
      _ ≤ (prior.map List.length).sum := hle

/-- `predictions` returns at most one item per grammar rule. -/
theorem predictions_length_le (item : Item) (g : Grammar) (i : Nat) :
    (predictions item g i).length ≤ g.rules.length := by
  unfold predictions
  cases hr : item.rest with
  | nil => simp
  | cons s tl =>
    show (if s ∈ g.terminals then [] else
      (g.rules.filter fun rule => decide (rule.1 = s)).map
        fun rule => initial_item rule i).length ≤ g.rules.length
    by_cases hs : s ∈ g.terminals
    · simp [hs]
    · simp only [if_neg hs, List.length_map]
      exact List.length_filter_le _ g.rules

/-- The fuel supplied by `stateFuel` really does outlast the worklist
loop: the outer `none` (fuel exhaustion) never occurs when the loop
starts with enough fuel for the measure
`(K + 1) * (universe + 1 - state size) + worklist size`. -/
theorem closureFuel_enough (g : Grammar) (prior : List (List Item))
    (i : Nat) (t : Sym)
    (hprior : ∀ j st, prior.get? j = some st → ∀ p ∈ st, Inv g j p) :
    ∀ (fuel : Nat) (state items nxt : List Item),
      state.Nodup → (∀ p ∈ state, Inv g i p) → (∀ p ∈ items, Inv g i p) →
      (g.rules.length + (prior.map List.length).sum + 1) *
          ((allItems g i).dedup.length + 1 - state.length) +
          items.length ≤ fuel →
      closureFuel g prior i t fuel state items nxt ≠ none := by
  intro fuel
  set K := g.rules.length + (prior.map List.length).sum with hK
  set U := (allItems g i).dedup.length with hU
  induction fuel with
  | zero =>
    intro state items nxt _ _ _ hm
    cases items with
    | nil => simp [closureFuel]
    | cons item rest => simp at hm
  | succ fuel ih =>
    intro state items nxt hnd hst hwl hm
    cases items with
    | nil => simp [closureFuel]
    | cons item rest =>
      have hitem : Inv g i item := hwl item (List.mem_cons_self item rest)
      have hrest : ∀ p ∈ rest, Inv g i p :=
        fun p hp => hwl p (List.mem_cons_of_mem item hp)
      simp only [closureFuel]
      by_cases hmem : item ∈ state
      · rw [if_pos hmem]
        refine ih state rest nxt hnd hst hrest ?_
        simp only [List.length_cons] at hm
        omega
      · rw [if_neg hmem]
        have hsU : state.length ≤ U := state_card_le_dedup g i state hnd hst
        have hnd2 : (state ++ [item]).Nodup :=
          nodup_append_singleton hnd hmem
        have hst2 : ∀ p ∈ state ++ [item], Inv g i p := by
          intro p hp
          rcases List.mem_append.mp hp with hp | hp
          · exact hst p hp
          · rw [List.mem_singleton.mp hp]; exact hitem
        have hsplit : U + 1 - state.length = (U - state.length) + 1 := by
          omega
        rw [hsplit, Nat.mul_add, Nat.mul_one] at hm
        have hlen2 : (state ++ [item]).length = state.length + 1 := by simp
        cases hres : item.rest with
        | nil =>
          simp only [hres]
          cases hcomp : completions item prior with
          | none => simp
          | some comps =>
            have hcl : comps.length ≤ K := by
              have := completions_length_le item prior comps hcomp
              omega
            refine ih (state ++ [item]) (rest ++ comps) nxt hnd2 hst2 ?_ ?_
            · intro p hp
              rcases List.mem_append.mp hp with hp | hp
              · exact hrest p hp
              · exact completions_inv g prior item comps i hprior
                  hitem.2 hcomp p hp
            · rw [hlen2]
              have hU1 : U + 1 - (state.length + 1) = U - state.length :=
                by omega
              rw [hU1]
              simp only [List.length_append, List.length_cons] at hm ⊢
              omega
        | cons s tl =>
          simp only [hres]
          by_cases hcond : s ∈ g.terminals ∧ s = t
          · rw [if_pos hcond]
            refine ih (state ++ [item]) rest (nxt ++ [advance item]) hnd2
              hst2 hrest ?_
            rw [hlen2]
            have hU1 : U + 1 - (state.length + 1) = U - state.length := by
              omega
            rw [hU1]
            simp only [List.length_cons] at hm
            omega
          · rw [if_neg hcond]
            have hpl : (predictions item g i).length ≤ K := by
              have := predictions_length_le item g i
              omega
            refine ih (state ++ [item]) (rest ++ predictions item g i) nxt
              hnd2 hst2 ?_ ?_
            · intro p hp
              rcases List.mem_append.mp hp with hp | hp
              · exact hrest p hp
              · exact predictions_inv item g i p hp
            · rw [hlen2]
              have hU1 : U + 1 - (state.length + 1) = U - state.length :=
                by omega
              rw [hU1]
              simp only [List.length_append, List.length_cons] at hm ⊢
              omega

/-- The position loop never exhausts its fuel: its only failure mode is
the `IndexError` of a same-position completion. -/
theorem earleyGo_total (g : Grammar) :
    ∀ (ts : List Sym) (states : List (List Item)) (nxt : List Item),
      (∀ j st, states.get? j = some st →
        st.Nodup ∧ ∀ p ∈ st, Inv g j p) →
      (∀ p ∈ nxt, Inv g states.length p) →
      earleyGo g states nxt ts ≠ none := by
  intro ts
  induction ts with
  | nil => intro states nxt _ _; simp [earleyGo]
  | cons t ts ih =>
    intro states nxt hstates hnxt
    simp only [earleyGo]
    have hpr : ∀ j st, states.get? j = some st → ∀ p ∈ st, Inv g j p :=
      fun j st hj => (hstates j st hj).2
    cases hc : closureFuel g states states.length t
        (stateFuel g states nxt) [] nxt [] with
    | none =>
      exfalso
      refine closureFuel_enough g states states.length t hpr
        (stateFuel g states nxt) [] nxt [] List.nodup_nil (by simp) hnxt
        ?_ hc
      unfold stateFuel
      simp
    | some o =>
      cases o with
      | none => simp
      | some p =>
        obtain ⟨state, nxt2⟩ := p
        have hcl := closure_inv g states states.length t hpr
          (stateFuel g states nxt) [] nxt [] state nxt2 List.nodup_nil
          (by simp) hnxt (by simp) hc
        refine ih (states ++ [state]) nxt2 ?_ ?_
        · intro j st hj
          by_cases hlt : j < states.length
          · rw [List.get?_append hlt] at hj
            exact hstates j st hj
          · have hge := le_of_not_lt hlt
            rw [List.get?_append_right hge] at hj
            cases hd : j - states.length with
            | zero =>
              rw [hd] at hj
              simp at hj
              subst hj
              have hjeq : j = states.length := by omega
              subst hjeq
              exact ⟨hcl.1, hcl.2.1⟩
            | succ k =>
              rw [hd] at hj
              simp at hj
        · intro p hp
          have := hcl.2.2 p hp
          refine inv_mono g states.length _ p ?_ this
          simp

/-- `earley_table` (and so `recognizer`) never runs out of the embedding's
fuel: the only abnormal outcome is the source's `IndexError`, `some none`.
-/
theorem earley_table_total (g : Grammar) (tokens : List Sym) :
    earley_table g tokens ≠ none := by
  unfold earley_table
  refine earleyGo_total g (tokens ++ [""]) [] _ ?_ (seed_inv g)
  intro j st hj
  simp at hj

/-- Witness for C5: in the chain grammar at position 0 with lookahead
`"0"`, the fresh item `b → . 0` scans into the next position's seed. -/
theorem scan_step_spec_witness :
    ("0" = "0" →
      closureFuel chainGrammar [] 0 "0" (3 + 1) [] [⟨"b", [], ["0"], 0⟩]
          [] =
        closureFuel chainGrammar [] 0 "0" 3 ([] ++ [⟨"b", [], ["0"], 0⟩])
          [] ([] ++ [advance ⟨"b", [], ["0"], 0⟩])) ∧
    ("0" ≠ "0" →
      predictions ⟨"b", [], ["0"], 0⟩ chainGrammar 0 = [] ∧
      closureFuel chainGrammar [] 0 "0" (3 + 1) [] [⟨"b", [], ["0"], 0⟩]
          [] =
        closureFuel chainGrammar [] 0 "0" 3 ([] ++ [⟨"b", [], ["0"], 0⟩])
          [] []) :=
  scan_step_spec chainGrammar [] 0 "0" 3 [] [] [] ⟨"b", [], ["0"], 0⟩
    "0" [] (by decide) rfl (by decide)

end Earley
